import Mathlib

/-!
Verification of the minibatch splitting, trimming, padding, weighting and
gradient-combination logic of `nematus/model_updater.py`.

Arrays are modelled example-major: a numpy array of shape
`(seq_len, batch_size)` becomes a `List` of `batch_size` example columns,
each a `List` of `seq_len` entries, so slicing `a[..., p:q]` along the
example axis is `(a.drop p).take (q - p)` and trimming `a[..., 0:l, :]`
along the sequence axis maps `List.take l` over the columns.  Mask entries
are naturals (0/1); weights and gradients are rationals standing in for the
floats of the source.
-/

namespace Nematus

/-- The Python `max` builtin, over a list of naturals (the source only applies it to
non-empty lists, where the 0 base of the fold is absorbed). -/
def pymax (xs : List ℕ) : ℕ := xs.foldr max 0

/-- `numpy.sum(mask, axis=0)`: the per-example (per-column) sums of a mask,
i.e. the real sequence lengths. -/
def lengthsOf (mask : List (List ℕ)) : List ℕ := mask.map List.sum

/-- `math.ceil(a / b)` for naturals (the source divides two non-negative ints
with `/` and rounds up with `math.ceil`). -/
def ceilDiv (a b : ℕ) : ℕ := (a + b - 1) / b

/-- The `soft_limit` of `_split_minibatch_into_n`:
`ceil((max(source_lengths)*num_sents + max(target_lengths)*num_sents) / n)`
with `num_sents = len(source_lengths)`. -/
def softLimit (sl tl : List ℕ) (n : ℕ) : ℕ :=
  ceilDiv (pymax sl * sl.length + pymax tl * sl.length) n

/-- The inner `for j in range(i+1, num_sents)` loop of
`_split_minibatch_into_n`, with the running maxima `s_longest` / `t_longest`
as accumulators.  `rem` is the number of loop iterations left
(`num_sents - j`), which makes the recursion structural.  Returns
`next_start_point`. -/
def scanN (sl tl : List ℕ) (limit i : ℕ) : ℕ → ℕ → ℕ → ℕ → Option ℕ
  | _, _, _, 0 => none
  | sLong, tLong, j, rem + 1 =>
    let sL := max sLong (sl.getD j 0)
    let tL := max tLong (tl.getD j 0)
    if limit < sL * (j - i + 1) + tL * (j - i + 1) then some (j + 1)
    else scanN sl tl limit i sL tL (j + 1) rem

/-- One iteration of the outer `while True` loop of
`_split_minibatch_into_n`: compute `next_start_point` from the last start
point `i`. -/
def findNextN (sl tl : List ℕ) (limit i : ℕ) : Option ℕ :=
  scanN sl tl limit i (sl.getD i 0) (tl.getD i 0) (i + 1) (sl.length - (i + 1))

/-- The outer loop of `_split_minibatch_into_n`: keep appending
`next_start_point` while it is neither `None` nor `>= num_sents`.  Every
appended point strictly exceeds the previous one and stays below
`num_sents`, so the loop runs at most `num_sents` times; `fuel`
(instantiated with `num_sents`) bounds the iteration count so that the
recursion is structural. -/
def splitRestN (sl tl : List ℕ) (limit : ℕ) : ℕ → ℕ → List ℕ
  | _, 0 => []
  | i, fuel + 1 =>
    match findNextN sl tl limit i with
    | none => []
    | some p => if p < sl.length then p :: splitRestN sl tl limit p fuel else []

/-- `_split_minibatch_into_n` on the per-example length lists (the source
computes these from the masks first; its closing
`assert len(start_points) <= n` is the subject of claim C7). -/
def splitIntoN (sl tl : List ℕ) (n : ℕ) : List ℕ :=
  0 :: splitRestN sl tl (softLimit sl tl n) 0 sl.length

/-- The inner scan of the token-limited branch of
`_split_minibatch_for_device_size`; identical to `scanN` except that the
source and target token counts are checked separately against the hard
limit and the bin closes at `j` rather than `j + 1`. -/
def scanCap (sl tl : List ℕ) (L i : ℕ) : ℕ → ℕ → ℕ → ℕ → Option ℕ
  | _, _, _, 0 => none
  | sLong, tLong, j, rem + 1 =>
    let sL := max sLong (sl.getD j 0)
    let tL := max tLong (tl.getD j 0)
    if L < sL * (j - i + 1) ∨ L < tL * (j - i + 1) then some j
    else scanCap sl tl L i sL tL (j + 1) rem

/-- One iteration of the `while True` loop of the token-limited branch. -/
def findNextCap (sl tl : List ℕ) (L i : ℕ) : Option ℕ :=
  scanCap sl tl L i (sl.getD i 0) (tl.getD i 0) (i + 1) (sl.length - (i + 1))

/-- The outer loop of the token-limited branch: append `next_start_point`
until it is `None` (the returned point is always `< num_sents` here, so the
loop has no second break condition).  As in `splitRestN`, `fuel` makes the
recursion structural. -/
def splitRestCap (sl tl : List ℕ) (L : ℕ) : ℕ → ℕ → List ℕ
  | _, 0 => []
  | i, fuel + 1 =>
    match findNextCap sl tl L i with
    | none => []
    | some p => p :: splitRestCap sl tl L p fuel

/-- The token-limited split of `_split_minibatch_for_device_size`, on the
per-example length lists. -/
def capacityStarts (sl tl : List ℕ) (L : ℕ) : List ℕ :=
  0 :: splitRestCap sl tl L 0 sl.length

/-- `_split_minibatch_for_device_size`.  The two `assert` statements become
errors.  In the example-count branch the source evaluates
`range(0, num_sents, max_sents_per_device)`, but the local `num_sents` is
only assigned in the token-limit branch, so Python raises
`UnboundLocalError` there. -/
def splitForDeviceSize (x_mask y_mask : List (List ℕ)) (msd mtd : ℕ) :
    Except String (List ℕ) :=
  if ¬(msd = 0 ∨ mtd = 0) then Except.error "AssertionError"
  else if msd = 0 ∧ mtd = 0 then Except.error "AssertionError"
  else if msd ≠ 0 then
    Except.error "UnboundLocalError: local variable num_sents referenced before assignment"
  else
    let sl := lengthsOf x_mask
    let tl := lengthsOf y_mask
    if sl.length ≠ tl.length then Except.error "AssertionError"
    else Except.ok (capacityStarts sl tl mtd)

/-- `a[..., p:q]`: a contiguous slice of the example axis. -/
def sliceCols (a : List α) (p q : ℕ) : List α := (a.drop p).take (q - p)

/-- The `split_array` helper of `_split_and_pad_minibatch`: slice at
consecutive start points, the last slice running to `batch_size`. -/
def splitArray (a : List α) : List ℕ → List (List α)
  | [] => []
  | [p] => [sliceCols a p a.length]
  | p :: q :: rest => sliceCols a p q :: splitArray a (q :: rest)

/-- `int(numpy.max(numpy.sum(m, axis=0)))`: the longest real length in a
sub-batch mask. -/
def trimLen (m : List (List ℕ)) : ℕ := pymax (lengthsOf m)

/-- `a[..., 0:l, :]`: cut every example column down to its first `l`
sequence positions. -/
def trimTo (l : ℕ) (m : List (List α)) : List (List α) := m.map (List.take l)

/-- Trim one sub-batch mask to its own longest real length. -/
def trimSub (m : List (List ℕ)) : List (List ℕ) := trimTo (trimLen m) m

/-- `numpy.sum` over a whole mask. -/
def maskSum (m : List (List ℕ)) : ℕ := (lengthsOf m).sum

/-- `a[..., -1:]`: the last example column as a single-example slice. -/
def lastColSlice (a : List α) : List α := a.drop (a.length - 1)

/-- `_split_and_pad_minibatch`, restricted to the two mask arrays and the
weights (the token arrays `x` / `y` go through the same `split_array` and
padding code, which claim C3 covers generically).  Returns the trimmed,
padded sub-batch masks and the unnormalized weights. -/
def splitAndPadMasks (x_mask y_mask : List (List ℕ)) (start_points : List ℕ)
    (num_replicas : ℕ) :
    List (List (List ℕ)) × List (List (List ℕ)) × List ℚ :=
  let split_x_mask := (splitArray x_mask start_points).map trimSub
  let split_y_mask := (splitArray y_mask start_points).map trimSub
  let weights : List ℚ := (split_x_mask.zip split_y_mask).map
    (fun st => ((maskSum st.1 + maskSum st.2 : ℕ) : ℚ))
  let remainder := start_points.length % num_replicas
  let padding_size := if remainder = 0 then 0 else num_replicas - remainder
  (split_x_mask ++ List.replicate padding_size (lastColSlice (split_x_mask.headD [])),
   split_y_mask ++ List.replicate padding_size (lastColSlice (split_y_mask.headD [])),
   weights ++ List.replicate padding_size 0)

/-- `normalized_weights = [w / sum(weights) for w in weights]`.  The weights
are numpy scalars, and dividing by a zero numpy scalar produces `nan` / `inf`
together with a `RuntimeWarning`, not an exception, so this step has no
failure branch; rational division (where `w / 0 = 0`) stands in for those
float values. -/
def normalizeWeights (ws : List ℚ) : List ℚ := ws.map (fun w => w / ws.sum)

/-- `_split_minibatch_into_n` with its Python failure modes made explicit:
the `assert len(source_lengths) == len(target_lengths)`, the `ValueError`
that `max` raises on an empty minibatch, the `ZeroDivisionError` for
`n = 0`, and the closing `assert len(start_points) <= n`. -/
def split_minibatch_into_n (x_mask y_mask : List (List ℕ)) (n : ℕ) :
    Except String (List ℕ) :=
  let sl := lengthsOf x_mask
  let tl := lengthsOf y_mask
  if sl.length ≠ tl.length then Except.error "AssertionError"
  else if sl.length = 0 then Except.error "ValueError: max() arg is an empty sequence"
  else if n = 0 then Except.error "ZeroDivisionError: division by zero"
  else
    let pts := splitIntoN sl tl n
    if pts.length ≤ n then Except.ok pts else Except.error "AssertionError"

/-- The pre-dispatch part of `ModelUpdater.update`: choose the split policy,
split and pad the minibatch, and normalize the sub-batch weights.
Everything after this point feeds sub-batches to the replicas. -/
def updatePrepare (x_mask y_mask : List (List ℕ))
    (max_sentences_per_device max_tokens_per_device num_replicas
     aggregation_steps : ℕ) :
    Except String (List (List (List ℕ)) × List (List (List ℕ)) × List ℚ) :=
  let pts? :=
    if max_sentences_per_device ≠ 0 ∨ max_tokens_per_device ≠ 0 then
      splitForDeviceSize x_mask y_mask max_sentences_per_device
        max_tokens_per_device
    else
      split_minibatch_into_n x_mask y_mask (num_replicas * aggregation_steps)
  match pts? with
  | Except.error e => Except.error e
  | Except.ok pts =>
    let r := splitAndPadMasks x_mask y_mask pts num_replicas
    Except.ok (r.1, r.2.1, normalizeWeights r.2.2)

/-- One step of building the `d` dictionary of `_sum_gradients`: append
`(g, v)` under the key `v` (a variable identity is modelled as a natural
number, a gradient as `Option ℚ` with `none` for the TensorFlow `None`).  The
association list keeps the Python dict insertion order. -/
def dictAdd (d : List (ℕ × List (Option ℚ))) (v : ℕ) (g : Option ℚ) :
    List (ℕ × List (Option ℚ)) :=
  match d with
  | [] => [(v, [g])]
  | (v', gs) :: rest =>
    if v = v' then (v', gs ++ [g]) :: rest else (v', gs) :: dictAdd rest v g

/-- The dictionary-building loops of `_sum_gradients`. -/
def buildDict (all_grad_vars : List (List (Option ℚ × ℕ))) :
    List (ℕ × List (Option ℚ)) :=
  all_grad_vars.foldl
    (fun d grad_vars => grad_vars.foldl (fun d gv => dictAdd d gv.2 gv.1) d) []

/-- `sum_i g_i * weights[i]` over the gradient list of one variable (the
`expand_dims`, `concat` and `reduce_sum` calls amount to this sum).  An
absent gradient counts as zero here, which only matters for the spec-side
rule below — the source never reaches this sum with a `None` entry. -/
def weightedSum (gs : List (Option ℚ)) (weights : List ℚ) : ℚ :=
  ((gs.zip weights).map (fun gw => gw.1.getD 0 * gw.2)).sum

/-- `_sum_gradients`: group the per-sub-batch `(gradient, variable)` pairs
by variable; a variable any of whose gradients is `None` yields
`(None, var)`, otherwise the weighted sum of its gradients. -/
def sumGradients (all_grad_vars : List (List (Option ℚ × ℕ)))
    (weights : List ℚ) : List (Option ℚ × ℕ) :=
  (buildDict all_grad_vars).map (fun vgs =>
    if vgs.2.any (fun g => g.isNone) then (none, vgs.1)
    else (some (weightedSum vgs.2 weights), vgs.1))

/-- The combination rule as the specification states it: a worker that
reports a parameter as unused contributes zero while the weighted
contributions of the other workers are still summed; only a parameter unused by every
worker yields no contribution. -/
def specCombine (all_grad_vars : List (List (Option ℚ × ℕ)))
    (weights : List ℚ) : List (Option ℚ × ℕ) :=
  (buildDict all_grad_vars).map (fun vgs =>
    if vgs.2.all (fun g => g.isNone) then (none, vgs.1)
    else (some (weightedSum vgs.2 weights), vgs.1))

/-- The running maximum maintained by the capacity scan: `max xs[i..j]`
(read through `getD`, as the scan does). -/
def rangeMax (xs : List ℕ) (i : ℕ) : ℕ → ℕ
  | 0 => xs.getD i 0
  | j + 1 => if j + 1 ≤ i then xs.getD i 0
             else max (rangeMax xs i j) (xs.getD (j + 1) 0)

/-- Including example `j` in a bin opened at example `i` would exceed the
token limit `L` on the source or on the target side. -/
def capOverflow (sl tl : List ℕ) (L i j : ℕ) : Prop :=
  L < rangeMax sl i j * (j - i + 1) ∨ L < rangeMax tl i j * (j - i + 1)

/-- Start point `q` closes the bin opened at `p` exactly where the first
token overflow occurs. -/
def closesBin (sl tl : List ℕ) (L : ℕ) (p q : ℕ) : Prop :=
  p < q ∧ capOverflow sl tl L p q ∧ ∀ k, p < k → k < q → ¬capOverflow sl tl L p k

/-- A well-formed mask column: the real (1) entries form a leading block,
followed by 0 padding. -/
def isPaddedCol (c : List ℕ) : Prop :=
  ∃ k, k ≤ c.length ∧ c = List.replicate k 1 ++ List.replicate (c.length - k) 0


theorem le_mul_ceilDiv (a b : ℕ) (hb : 1 ≤ b) : a ≤ b * ceilDiv a b := by
  rw [ceilDiv]
  have h := Nat.div_add_mod (a + b - 1) b
  have hm : (a + b - 1) % b < b := Nat.mod_lt _ (by omega)
  omega

theorem getD_le_pymax (xs : List ℕ) : ∀ j, xs.getD j 0 ≤ pymax xs := by
  induction xs with
  | nil => intro j; simp [pymax, List.getD]
  | cons x xs ih =>
    intro j
    cases j with
    | zero => simp [pymax]
    | succ j => simpa [pymax] using le_trans (ih j) (le_max_right _ _)

theorem mem_le_pymax (xs : List ℕ) (x : ℕ) (hx : x ∈ xs) : x ≤ pymax xs := by
  induction xs with
  | nil => cases hx
  | cons y ys ih =>
    rcases List.mem_cons.mp hx with rfl | hx
    · simp [pymax]
    · simpa [pymax] using le_trans (ih hx) (le_max_right _ _)

theorem pymax_le (xs : List ℕ) (B : ℕ) (h : ∀ x ∈ xs, x ≤ B) : pymax xs ≤ B := by
  induction xs with
  | nil => simp [pymax]
  | cons x xs ih =>
    simp only [pymax, List.foldr_cons]
    exact max_le (h x (by simp)) (ih (fun y hy => h y (List.mem_cons_of_mem _ hy)))

theorem scanN_some_lt (sl tl : List ℕ) (limit i : ℕ) :
    ∀ rem sLong tLong j p,
      scanN sl tl limit i sLong tLong j rem = some p → j < p ∧ p ≤ j + rem := by
  intro rem
  induction rem with
  | zero => intro sLong tLong j p h; simp [scanN] at h
  | succ rem ih =>
    intro sLong tLong j p h
    simp only [scanN] at h
    split at h
    · cases h; omega
    · have := ih _ _ _ _ h
      omega

theorem scanN_some_tokens (sl tl : List ℕ) (limit i Ms Mt : ℕ)
    (hs : ∀ j, sl.getD j 0 ≤ Ms) (ht : ∀ j, tl.getD j 0 ≤ Mt) :
    ∀ rem sLong tLong j p, i ≤ j → sLong ≤ Ms → tLong ≤ Mt →
      scanN sl tl limit i sLong tLong j rem = some p →
      limit + 1 ≤ (Ms + Mt) * (p - i) := by
  intro rem
  induction rem with
  | zero => intro _ _ j p _ _ _ h; simp [scanN] at h
  | succ rem ih =>
    intro sLong tLong j p hij hsL htL h
    simp only [scanN] at h
    split at h
    · rename_i hc
      cases h
      have h1 : max sLong (sl.getD j 0) ≤ Ms := max_le hsL (hs j)
      have h2 : max tLong (tl.getD j 0) ≤ Mt := max_le htL (ht j)
      have h3 : limit < Ms * (j - i + 1) + Mt * (j - i + 1) :=
        lt_of_lt_of_le hc
          (Nat.add_le_add (Nat.mul_le_mul_right _ h1) (Nat.mul_le_mul_right _ h2))
      have h4 : Ms * (j - i + 1) + Mt * (j - i + 1) = (Ms + Mt) * (j + 1 - i) := by
        have : j + 1 - i = j - i + 1 := by omega
        rw [this]; ring
      omega
    · exact ih _ _ _ _ (by omega) (max_le hsL (hs j)) (max_le htL (ht j)) h

theorem findNextN_lt (sl tl : List ℕ) (limit i p : ℕ)
    (h : findNextN sl tl limit i = some p) : i < p ∧ p ≤ sl.length := by
  have h2 := scanN_some_lt sl tl limit i _ _ _ _ _ h
  by_cases hlen : i + 1 ≤ sl.length
  · omega
  · exfalso
    have hz : sl.length - (i + 1) = 0 := by omega
    rw [findNextN, hz] at h
    simp [scanN] at h

theorem findNextN_tokens (sl tl : List ℕ) (limit i p : ℕ)
    (h : findNextN sl tl limit i = some p) :
    limit + 1 ≤ (pymax sl + pymax tl) * (p - i) :=
  scanN_some_tokens sl tl limit i (pymax sl) (pymax tl)
    (getD_le_pymax sl) (getD_le_pymax tl) _ _ _ _ _
    (by omega) (getD_le_pymax sl i) (getD_le_pymax tl i) h

theorem splitRestN_chain (sl tl : List ℕ) (limit : ℕ) :
    ∀ fuel i, List.Chain' (· < ·) (i :: splitRestN sl tl limit i fuel) ∧
      ∀ p ∈ splitRestN sl tl limit i fuel, p < sl.length := by
  intro fuel
  induction fuel with
  | zero => intro i; simp [splitRestN]
  | succ fuel ih =>
    intro i
    cases h : findNextN sl tl limit i with
    | none => simp [splitRestN, h]
    | some p =>
      simp only [splitRestN, h]
      split
      · rename_i hp
        have hip : i < p := (findNextN_lt sl tl limit i p h).1
        refine ⟨List.chain'_cons.mpr ⟨hip, (ih p).1⟩, ?_⟩
        intro q hq
        rcases List.mem_cons.mp hq with rfl | hq
        · exact hp
        · exact (ih p).2 q hq
      · simp

theorem splitRestN_tokens (sl tl : List ℕ) (limit : ℕ) :
    ∀ fuel i, (splitRestN sl tl limit i fuel).length * (limit + 1) ≤
      (pymax sl + pymax tl) * (sl.length - i) := by
  intro fuel
  induction fuel with
  | zero => intro i; simp [splitRestN]
  | succ fuel ih =>
    intro i
    cases h : findNextN sl tl limit i with
    | none => simp [splitRestN, h]
    | some p =>
      simp only [splitRestN, h]
      split
      · rename_i hp
        have hip : i < p := (findNextN_lt sl tl limit i p h).1
        have htok := findNextN_tokens sl tl limit i p h
        have hih := ih p
        simp only [List.length_cons]
        have hsplit : sl.length - i = (sl.length - p) + (p - i) := by omega
        calc ((splitRestN sl tl limit p fuel).length + 1) * (limit + 1)
            = (splitRestN sl tl limit p fuel).length * (limit + 1) + (limit + 1) := by
              ring
          _ ≤ (pymax sl + pymax tl) * (sl.length - p) +
              (pymax sl + pymax tl) * (p - i) := Nat.add_le_add hih htok
          _ = (pymax sl + pymax tl) * ((sl.length - p) + (p - i)) := by ring
          _ = (pymax sl + pymax tl) * (sl.length - i) := by rw [← hsplit]
      · simp

theorem rangeMax_self (xs : List ℕ) (i : ℕ) : rangeMax xs i i = xs.getD i 0 := by
  cases i with
  | zero => rfl
  | succ j => simp [rangeMax]

theorem rangeMax_succ (xs : List ℕ) (i j : ℕ) (h : i ≤ j) :
    rangeMax xs i (j + 1) = max (rangeMax xs i j) (xs.getD (j + 1) 0) := by
  simp only [rangeMax]
  rw [if_neg (by omega)]

theorem scanCap_some_spec (sl tl : List ℕ) (L i : ℕ) :
    ∀ rem j p, i < j →
      scanCap sl tl L i (rangeMax sl i (j - 1)) (rangeMax tl i (j - 1)) j rem = some p →
      j ≤ p ∧ p < j + rem ∧ capOverflow sl tl L i p ∧
        ∀ k, j ≤ k → k < p → ¬capOverflow sl tl L i k := by
  intro rem
  induction rem with
  | zero => intro j p _ h; simp [scanCap] at h
  | succ rem ih =>
    intro j p hij h
    simp only [scanCap] at h
    have hsx : max (rangeMax sl i (j - 1)) (sl.getD j 0) = rangeMax sl i j := by
      obtain ⟨j', rfl⟩ : ∃ j', j = j' + 1 := ⟨j - 1, by omega⟩
      simp only [Nat.add_sub_cancel]
      rw [rangeMax_succ sl i j' (by omega)]
    have htx : max (rangeMax tl i (j - 1)) (tl.getD j 0) = rangeMax tl i j := by
      obtain ⟨j', rfl⟩ : ∃ j', j = j' + 1 := ⟨j - 1, by omega⟩
      simp only [Nat.add_sub_cancel]
      rw [rangeMax_succ tl i j' (by omega)]
    rw [hsx, htx] at h
    split at h
    · rename_i hc
      cases h
      exact ⟨le_refl _, by omega, hc, by intro k hk1 hk2; omega⟩
    · rename_i hc
      have h' : scanCap sl tl L i (rangeMax sl i (j + 1 - 1)) (rangeMax tl i (j + 1 - 1))
          (j + 1) rem = some p := by
        simpa using h
      have hrec := ih (j + 1) p (by omega) h'
      refine ⟨by omega, by omega, hrec.2.2.1, ?_⟩
      intro k hk1 hk2
      rcases Nat.eq_or_lt_of_le hk1 with rfl | hk
      · exact hc
      · exact hrec.2.2.2 k (by omega) hk2

theorem scanCap_none_spec (sl tl : List ℕ) (L i : ℕ) :
    ∀ rem j, i < j →
      scanCap sl tl L i (rangeMax sl i (j - 1)) (rangeMax tl i (j - 1)) j rem = none →
      ∀ k, j ≤ k → k < j + rem → ¬capOverflow sl tl L i k := by
  intro rem
  induction rem with
  | zero => intro j _ _ k hk1 hk2; omega
  | succ rem ih =>
    intro j hij h
    simp only [scanCap] at h
    have hsx : max (rangeMax sl i (j - 1)) (sl.getD j 0) = rangeMax sl i j := by
      obtain ⟨j', rfl⟩ : ∃ j', j = j' + 1 := ⟨j - 1, by omega⟩
      simp only [Nat.add_sub_cancel]
      rw [rangeMax_succ sl i j' (by omega)]
    have htx : max (rangeMax tl i (j - 1)) (tl.getD j 0) = rangeMax tl i j := by
      obtain ⟨j', rfl⟩ : ∃ j', j = j' + 1 := ⟨j - 1, by omega⟩
      simp only [Nat.add_sub_cancel]
      rw [rangeMax_succ tl i j' (by omega)]
    rw [hsx, htx] at h
    split at h
    · cases h
    · rename_i hc
      have h' : scanCap sl tl L i (rangeMax sl i (j + 1 - 1)) (rangeMax tl i (j + 1 - 1))
          (j + 1) rem = none := by
        simpa using h
      intro k hk1 hk2
      rcases Nat.eq_or_lt_of_le hk1 with rfl | hk
      · exact hc
      · exact ih (j + 1) (by omega) h' k (by omega) (by omega)

theorem findNextCap_spec (sl tl : List ℕ) (L i p : ℕ)
    (h : findNextCap sl tl L i = some p) :
    i < p ∧ p < sl.length ∧ capOverflow sl tl L i p ∧
      ∀ k, i < k → k < p → ¬capOverflow sl tl L i k := by
  rw [findNextCap] at h
  have h' : scanCap sl tl L i (rangeMax sl i (i + 1 - 1)) (rangeMax tl i (i + 1 - 1))
      (i + 1) (sl.length - (i + 1)) = some p := by
    simpa [rangeMax_self] using h
  have hs := scanCap_some_spec sl tl L i (sl.length - (i + 1)) (i + 1) p (by omega) h'
  by_cases hlen : i + 1 ≤ sl.length
  · exact ⟨by omega, by omega, hs.2.2.1, fun k hk1 hk2 => hs.2.2.2 k (by omega) hk2⟩
  · exfalso
    have hz : sl.length - (i + 1) = 0 := by omega
    rw [hz] at h'
    simp [scanCap] at h'

theorem findNextCap_none (sl tl : List ℕ) (L i : ℕ)
    (h : findNextCap sl tl L i = none) :
    ∀ k, i < k → k < sl.length → ¬capOverflow sl tl L i k := by
  rw [findNextCap] at h
  have h' : scanCap sl tl L i (rangeMax sl i (i + 1 - 1)) (rangeMax tl i (i + 1 - 1))
      (i + 1) (sl.length - (i + 1)) = none := by
    simpa [rangeMax_self] using h
  intro k hk1 hk2
  exact scanCap_none_spec sl tl L i (sl.length - (i + 1)) (i + 1) (by omega) h' k
    (by omega) (by omega)

theorem splitRestCap_spec (sl tl : List ℕ) (L : ℕ) :
    ∀ fuel i, sl.length - i ≤ fuel →
      List.Chain' (closesBin sl tl L) (i :: splitRestCap sl tl L i fuel) ∧
      (∀ q, (i :: splitRestCap sl tl L i fuel).getLast? = some q →
        ∀ k, q < k → k < sl.length → ¬capOverflow sl tl L q k) ∧
      (∀ p ∈ splitRestCap sl tl L i fuel, p < sl.length) := by
  intro fuel
  induction fuel with
  | zero =>
    intro i hfuel
    simp only [splitRestCap]
    refine ⟨by simp, ?_, by simp⟩
    intro q hq k hk1 hk2
    simp at hq
    omega
  | succ fuel ih =>
    intro i hfuel
    cases h : findNextCap sl tl L i with
    | none =>
      simp only [splitRestCap, h]
      refine ⟨by simp, ?_, by simp⟩
      intro q hq k hk1 hk2
      simp at hq
      subst hq
      exact findNextCap_none sl tl L i h k hk1 hk2
    | some p =>
      simp only [splitRestCap, h]
      have hs := findNextCap_spec sl tl L i p h
      have hih := ih p (by omega)
      refine ⟨?_, ?_, ?_⟩
      · exact List.chain'_cons.mpr ⟨⟨hs.1, hs.2.2.1, hs.2.2.2⟩, hih.1⟩
      · intro q hq k hk1 hk2
        rw [List.getLast?_cons_cons] at hq
        exact hih.2.1 q hq k hk1 hk2
      · intro q hq
        rcases List.mem_cons.mp hq with rfl | hq
        · exact hs.2.1
        · exact hih.2.2 q hq

theorem splitArray_length (a : List α) :
    ∀ pts : List ℕ, (splitArray a pts).length = pts.length := by
  intro pts
  induction pts with
  | nil => rfl
  | cons p rest ih =>
    cases rest with
    | nil => rfl
    | cons q rest2 =>
      simp only [splitArray, List.length_cons] at ih ⊢
      omega

theorem splitArray_flatten (a : List α) :
    ∀ (pts : List ℕ) (p : ℕ),
      List.Chain' (· < ·) (p :: pts) → (splitArray a (p :: pts)).flatten = a.drop p := by
  intro pts
  induction pts with
  | nil =>
    intro p _
    simp only [splitArray, List.flatten_cons, List.flatten_nil, List.append_nil, sliceCols]
    exact List.take_of_length_le (by simp)
  | cons q rest ih =>
    intro p hchain
    have hpq : p < q := (List.chain'_cons.mp hchain).1
    simp only [splitArray, List.flatten_cons]
    rw [ih q (List.chain'_cons.mp hchain).2, sliceCols]
    obtain ⟨d, rfl⟩ : ∃ d, q = p + d := ⟨q - p, by omega⟩
    rw [Nat.add_sub_cancel_left, List.drop_take_append_drop]

theorem getD_replicate_of_lt (d x : α) : ∀ (m i : ℕ), i < m →
    (List.replicate m d).getD i x = d := by
  intro m
  induction m with
  | zero => intro i h; omega
  | succ m ih =>
    intro i h
    cases i with
    | zero => rfl
    | succ i => simpa [List.replicate_succ] using ih i (by omega)

theorem isPaddedCol_sum_eq_count (c : List ℕ) (h : isPaddedCol c) :
    c.sum = c.count 1 := by
  obtain ⟨k, hk, hc⟩ := h
  rw [hc]
  simp [List.sum_replicate, List.count_replicate, List.count_append]

theorem isPaddedCol_sum_le_length (c : List ℕ) (h : isPaddedCol c) :
    c.sum ≤ c.length := by
  obtain ⟨k, hk, hc⟩ := h
  rw [hc]
  simp [List.sum_replicate]

theorem isPaddedCol_take_count (c : List ℕ) (l : ℕ) (h : isPaddedCol c)
    (hl : c.sum ≤ l) : (c.take l).count 1 = c.count 1 := by
  obtain ⟨k, hk, hc⟩ := h
  set m := c.length - k with hm
  rw [hc] at hl ⊢
  have hsum : (List.replicate k 1 ++ List.replicate m 0).sum = k := by
    simp [List.sum_replicate]
  rw [hsum] at hl
  rw [List.take_append_eq_append_take, List.take_of_length_le (by simp [hl])]
  rw [List.take_replicate]
  simp [List.count_append, List.count_replicate]

theorem foldl_dictAdd_single (p : ℕ) :
    ∀ (gs acc : List (Option ℚ)),
      List.foldl (fun d g => dictAdd d p g) [(p, acc)] gs = [(p, acc ++ gs)] := by
  intro gs
  induction gs with
  | nil => intro acc; simp
  | cons g rest ih =>
    intro acc
    simp only [List.foldl_cons]
    have h1 : dictAdd [(p, acc)] p g = [(p, acc ++ [g])] := by simp [dictAdd]
    rw [h1, ih]
    simp

theorem buildDict_singletons (p : ℕ) (gs : List (Option ℚ)) (hne : gs ≠ []) :
    buildDict (gs.map (fun g => [(g, p)])) = [(p, gs)] := by
  have hfold : ∀ (rs : List (Option ℚ)) (d : List (ℕ × List (Option ℚ))),
      List.foldl (fun d gvs => List.foldl (fun d gv => dictAdd d gv.2 gv.1) d gvs)
        d (rs.map (fun g => [(g, p)])) = List.foldl (fun d g => dictAdd d p g) d rs := by
    intro rs
    induction rs with
    | nil => intro d; rfl
    | cons r rs ih => intro d; simp only [List.map_cons, List.foldl_cons, List.foldl_nil, ih]
  obtain ⟨g0, rest, rfl⟩ := List.exists_cons_of_ne_nil hne
  rw [buildDict, hfold]
  simp only [List.foldl_cons]
  have h0 : dictAdd [] p g0 = [(p, [g0])] := rfl
  rw [h0, foldl_dictAdd_single]
  simp

theorem splitIntoN_length_le (sl tl : List ℕ) (n : ℕ) (hn : 1 ≤ n) :
    (splitIntoN sl tl n).length ≤ n := by
  rw [splitIntoN]
  have h1 : (splitRestN sl tl (softLimit sl tl n) 0 sl.length).length *
      (softLimit sl tl n + 1) ≤ (pymax sl + pymax tl) * sl.length := by
    simpa using splitRestN_tokens sl tl (softLimit sl tl n) sl.length 0
  have h2 : (pymax sl + pymax tl) * sl.length ≤ n * softLimit sl tl n := by
    have h3 := le_mul_ceilDiv (pymax sl * sl.length + pymax tl * sl.length) n hn
    calc (pymax sl + pymax tl) * sl.length
        = pymax sl * sl.length + pymax tl * sl.length := by ring
      _ ≤ n * softLimit sl tl n := h3
  by_contra hcon
  push_neg at hcon
  simp only [List.length_cons] at hcon
  have hnk : n ≤ (splitRestN sl tl (softLimit sl tl n) 0 sl.length).length := by omega
  have h4 : n * (softLimit sl tl n + 1) ≤
      (splitRestN sl tl (softLimit sl tl n) 0 sl.length).length * (softLimit sl tl n + 1) :=
    Nat.mul_le_mul_right _ hnk
  have h5 : n * (softLimit sl tl n + 1) = n * softLimit sl tl n + n := by ring
  omega

/-- C7: for every non-empty pair of length lists and every `n ≥ 1` the
fixed-count split returns at most `n` start points; the closing
`assert len(start_points) <= n` of `_split_minibatch_into_n` never fails,
because every closed bin holds strictly more than `soft_limit` capacity
tokens while all bins together hold at most
`max(source)*num_sents + max(target)*num_sents` of them. -/
theorem c7_at_most_n_start_points (sl tl : List ℕ) (n : ℕ)
    (h0 : 0 < sl.length) (hlen : sl.length = tl.length) (hn : 1 ≤ n) :
    (splitIntoN sl tl n).length ≤ n :=
  splitIntoN_length_le sl tl n hn

theorem c7_at_most_n_start_points_witness :
    0 < ([3, 5, 2, 4] : List ℕ).length ∧
      (splitIntoN [3, 5, 2, 4] [2, 3, 1, 2] 2).length ≤ 2 :=
  ⟨by decide, c7_at_most_n_start_points [3, 5, 2, 4] [2, 3, 1, 2] 2 (by decide)
    (by decide) (by decide)⟩

/-- C10: both greedy scan loops only ever append a start point that is
strictly larger than the previous one and stays below the example count —
the measure by which the loops terminate — so both partitioners are total
on non-empty inputs. -/
theorem c10_split_loops_terminate (sl tl : List ℕ) (n L : ℕ)
    (h0 : 0 < sl.length) (hlen : sl.length = tl.length) :
    (List.Chain' (· < ·) (splitIntoN sl tl n) ∧
      ∀ p ∈ splitIntoN sl tl n, p < sl.length) ∧
    (List.Chain' (· < ·) (capacityStarts sl tl L) ∧
      ∀ p ∈ capacityStarts sl tl L, p < sl.length) := by
  constructor
  · constructor
    · exact (splitRestN_chain sl tl _ sl.length 0).1
    · intro p hp
      rcases List.mem_cons.mp hp with rfl | hp
      · exact h0
      · exact (splitRestN_chain sl tl _ sl.length 0).2 p hp
  · have hs := splitRestCap_spec sl tl L sl.length 0 (by omega)
    constructor
    · exact List.Chain'.imp (fun a b h => h.1) hs.1
    · intro p hp
      rcases List.mem_cons.mp hp with rfl | hp
      · exact h0
      · exact hs.2.2 p hp

theorem c10_split_loops_terminate_witness :
    0 < ([3, 5, 2, 4] : List ℕ).length ∧
      List.Chain' (· < ·) (splitIntoN [3, 5, 2, 4] [2, 3, 1, 2] 2) :=
  ⟨by decide,
    ((c10_split_loops_terminate [3, 5, 2, 4] [2, 3, 1, 2] 2 15 (by decide)
      (by decide)).1).1⟩

/-- C3: with either split strategy the returned start points begin at 0, are
strictly increasing and stay below the example count, so slicing any
minibatch array at them and concatenating the (pre-padding, hence non-dummy)
slices along the example axis reproduces the array exactly. -/
theorem c3_lossless_partition {α : Type} (a : List α) (x_mask y_mask : List (List ℕ))
    (n msd mtd : ℕ) (pts : List ℕ)
    (hlen : x_mask.length = a.length) (h0 : 0 < a.length)
    (hpts : pts = splitIntoN (lengthsOf x_mask) (lengthsOf y_mask) n ∨
      splitForDeviceSize x_mask y_mask msd mtd = Except.ok pts) :
    pts.head? = some 0 ∧ List.Chain' (· < ·) pts ∧ (∀ p ∈ pts, p < a.length) ∧
      (splitArray a pts).flatten = a := by
  have hxlen : (lengthsOf x_mask).length = a.length := by
    simp [lengthsOf, hlen]
  rcases hpts with rfl | hB
  · rw [splitIntoN]
    have hchain := splitRestN_chain (lengthsOf x_mask) (lengthsOf y_mask)
      (softLimit (lengthsOf x_mask) (lengthsOf y_mask) n) (lengthsOf x_mask).length 0
    refine ⟨rfl, hchain.1, ?_, ?_⟩
    · intro p hp
      rcases List.mem_cons.mp hp with rfl | hp
      · exact h0
      · rw [← hxlen]
        exact hchain.2 p hp
    · rw [splitArray_flatten a _ 0 hchain.1, List.drop_zero]
  · simp only [splitForDeviceSize] at hB
    split at hB
    · exact absurd hB (by simp)
    · split at hB
      · exact absurd hB (by simp)
      · split at hB
        · exact absurd hB (by simp)
        · split at hB
          · exact absurd hB (by simp)
          · simp only [Except.ok.injEq] at hB
            subst hB
            rw [capacityStarts]
            have hs := splitRestCap_spec (lengthsOf x_mask) (lengthsOf y_mask) mtd
              (lengthsOf x_mask).length 0 (by omega)
            have hchain : List.Chain' (· < ·)
                (0 :: splitRestCap (lengthsOf x_mask) (lengthsOf y_mask) mtd 0
                  (lengthsOf x_mask).length) :=
              List.Chain'.imp (fun a b h => h.1) hs.1
            refine ⟨rfl, hchain, ?_, ?_⟩
            · intro p hp
              rcases List.mem_cons.mp hp with rfl | hp
              · exact h0
              · rw [← hxlen]
                exact hs.2.2 p hp
            · rw [splitArray_flatten a _ 0 hchain, List.drop_zero]

theorem c3_lossless_partition_witness :
    0 < ([10, 20, 30] : List ℕ).length ∧
      (splitArray ([10, 20, 30] : List ℕ)
        (splitIntoN (lengthsOf [[1], [1], [1]]) (lengthsOf [[1], [1], [1]]) 1)).flatten =
        [10, 20, 30] :=
  ⟨by decide,
    (c3_lossless_partition ([10, 20, 30] : List ℕ) [[1], [1], [1]] [[1], [1], [1]] 1 0 0
      (splitIntoN (lengthsOf [[1], [1], [1]]) (lengthsOf [[1], [1], [1]]) 1) rfl
      (by decide) (Or.inl rfl)).2.2.2⟩

/-- C6: in the token-limited capacity split every bin closes exactly at the
first example whose inclusion would push `running_max * bin_size` over the
limit on the source or the target side (`closesBin`), the final bin has no
such example, an example whose own length already exceeds the limit still
forms a singleton bin, and in particular source lengths `[10,10,10]` with
`max_tokens_per_device = 15` split as `[0, 1, 2]`. -/
theorem c6_token_limited_split (sl tl : List ℕ) (L : ℕ) (h0 : 0 < sl.length) :
    List.Chain' (closesBin sl tl L) (capacityStarts sl tl L) ∧
    (∀ q, (capacityStarts sl tl L).getLast? = some q →
      ∀ k, q < k → k < sl.length → ¬capOverflow sl tl L q k) ∧
    List.Chain' (fun p q => L < sl.getD p 0 ∨ L < tl.getD p 0 → q = p + 1)
      (capacityStarts sl tl L) ∧
    capacityStarts [10, 10, 10] [1, 1, 1] 15 = [0, 1, 2] := by
  have hs := splitRestCap_spec sl tl L sl.length 0 (by omega)
  refine ⟨hs.1, hs.2.1, ?_, by decide⟩
  refine List.Chain'.imp ?_ hs.1
  intro p q hpq hown
  rcases hpq with ⟨hlt, hover, hmin⟩
  by_contra hne
  have hq : p + 1 < q := by omega
  apply hmin (p + 1) (by omega) hq
  have h2 : (p + 1) - p + 1 = 2 := by omega
  rcases hown with hsl | htl
  · have h1 : sl.getD p 0 ≤ rangeMax sl p (p + 1) := by
      rw [rangeMax_succ sl p p (le_refl p), rangeMax_self]
      exact le_max_left _ _
    refine Or.inl ?_
    rw [h2]
    calc L < sl.getD p 0 := hsl
      _ ≤ rangeMax sl p (p + 1) := h1
      _ ≤ rangeMax sl p (p + 1) * 2 := by omega
  · have h1 : tl.getD p 0 ≤ rangeMax tl p (p + 1) := by
      rw [rangeMax_succ tl p p (le_refl p), rangeMax_self]
      exact le_max_left _ _
    refine Or.inr ?_
    rw [h2]
    calc L < tl.getD p 0 := htl
      _ ≤ rangeMax tl p (p + 1) := h1
      _ ≤ rangeMax tl p (p + 1) * 2 := by omega

theorem c6_token_limited_split_witness :
    0 < ([10, 10, 10] : List ℕ).length ∧
      capacityStarts [10, 10, 10] [1, 1, 1] 15 = [0, 1, 2] :=
  ⟨by decide, (c6_token_limited_split [10, 10, 10] [1, 1, 1] 15 (by decide)).2.2.2⟩

/-- C1 (amended): in `_sum_gradients` a parameter that any worker reports
as unused (a `None` gradient) is dropped from the round entirely — the
contributions of the other workers for it are discarded, not summed; only when
no worker reports it unused does the round gradient equal the
weight-weighted sum over the workers. -/
theorem c1_any_unused_drops_parameter (gs : List (Option ℚ)) (ws : List ℚ) (p : ℕ)
    (hne : gs ≠ []) (hlen : gs.length = ws.length) :
    sumGradients (gs.map (fun g => [(g, p)])) ws =
      [(if gs.any (fun g => g.isNone) then none else some (weightedSum gs ws), p)] := by
  rw [sumGradients, buildDict_singletons p gs hne]
  simp only [List.map_cons, List.map_nil]
  by_cases hany : gs.any (fun g => g.isNone)
  · rw [if_pos hany, if_pos hany]
  · rw [if_neg hany, if_neg hany]

theorem c1_any_unused_drops_parameter_witness :
    ([some (1 : ℚ), none] : List (Option ℚ)) ≠ [] ∧
    sumGradients (([some (1 : ℚ), none] : List (Option ℚ)).map (fun g => [(g, 0)]))
        [1/2, 1/2] =
      [(if ([some (1 : ℚ), none] : List (Option ℚ)).any (fun g => g.isNone) then none
        else some (weightedSum [some (1 : ℚ), none] [1/2, 1/2]), 0)] :=
  ⟨by simp, c1_any_unused_drops_parameter [some (1 : ℚ), none] [1/2, 1/2] 0
    (by simp) (by simp)⟩

theorem c1_spec_rule_counterexample :
    sumGradients [[(some 1, 0)], [(none, 0)]] [1/2, 1/2] = [(none, 0)] ∧
    specCombine [[(some 1, 0)], [(none, 0)]] [1/2, 1/2] = [(some (1/2), 0)] ∧
    sumGradients [[(some 1, 0)], [(none, 0)]] [1/2, 1/2] ≠
      specCombine [[(some 1, 0)], [(none, 0)]] [1/2, 1/2] := by
  have h1 : sumGradients [[(some 1, 0)], [(none, 0)]] [1/2, 1/2] = [(none, 0)] := by
    simp [sumGradients, buildDict, dictAdd]
  have h2 : specCombine [[(some 1, 0)], [(none, 0)]] [1/2, 1/2] = [(some (1/2), 0)] := by
    simp [specCombine, buildDict, dictAdd, weightedSum]
  refine ⟨h1, h2, ?_⟩
  rw [h1, h2]
  simp

/-- C2: with a non-zero `max_sentences_per_device` the capacity split never
returns: the example-count branch reads the local `num_sents` before any
assignment to it, so Python raises `UnboundLocalError` instead of producing
the fixed-size chunks the spec describes. -/
theorem c2_sentence_limit_raises :
    splitForDeviceSize [[1]] [[1]] 1 0 =
      Except.error "UnboundLocalError: local variable num_sents referenced before assignment" :=
  rfl

theorem trimLen_eq_count_max (m : List (List ℕ)) (hpad : ∀ c ∈ m, isPaddedCol c) :
    trimLen m = pymax (m.map (fun c => c.count 1)) := by
  rw [trimLen, lengthsOf]
  congr 1
  exact List.map_congr_left (fun c hc => isPaddedCol_sum_eq_count c (hpad c hc))

/-- C5: trimming cuts the source and target sequence axes of a sub-batch
slice, independently, to exactly the longest real (masked-1 count) length
among the examples of the slice, and it never discards a masked-1 entry. -/
theorem c5_trimming (m : List (List ℕ)) (seqLen : ℕ) (hne : m ≠ [])
    (hcols : ∀ c ∈ m, c.length = seqLen) (hpad : ∀ c ∈ m, isPaddedCol c) :
    (∀ c ∈ trimSub m, c.length = pymax (m.map (fun c => c.count 1))) ∧
    (trimSub m).map (fun c => c.count 1) = m.map (fun c => c.count 1) := by
  have hlen_le : ∀ c ∈ m, c.sum ≤ trimLen m := by
    intro c hc
    exact mem_le_pymax _ _ (List.mem_map_of_mem List.sum hc)
  have htrim_le : ∀ c ∈ m, trimLen m ≤ c.length := by
    intro c hc
    rw [hcols c hc]
    refine pymax_le _ _ ?_
    intro s hs
    rcases List.mem_map.mp hs with ⟨c', hc', rfl⟩
    calc c'.sum ≤ c'.length := isPaddedCol_sum_le_length c' (hpad c' hc')
      _ = seqLen := hcols c' hc'
  constructor
  · intro c hc
    rcases List.mem_map.mp hc with ⟨c', hc', rfl⟩
    rw [← trimLen_eq_count_max m hpad, List.length_take]
    exact min_eq_left (htrim_le c' hc')
  · rw [trimSub, trimTo, List.map_map]
    exact List.map_congr_left (fun c hc =>
      isPaddedCol_take_count c (trimLen m) (hpad c hc) (hlen_le c hc))

theorem c5_trimming_witness :
    ([[1,1,1,0,0,0],[1,1,1,1,1,0],[1,1,0,0,0,0]] : List (List ℕ)) ≠ [] ∧
    (trimSub [[1,1,1,0,0,0],[1,1,1,1,1,0],[1,1,0,0,0,0]]).map (fun c => c.count 1) =
      ([[1,1,1,0,0,0],[1,1,1,1,1,0],[1,1,0,0,0,0]] : List (List ℕ)).map
        (fun c => c.count 1) := by
  refine ⟨by simp, ?_⟩
  refine (c5_trimming [[1,1,1,0,0,0],[1,1,1,1,1,0],[1,1,0,0,0,0]] 6 (by simp)
    (by decide) ?_).2
  intro c hc
  simp only [List.mem_cons, List.not_mem_nil, or_false] at hc
  rcases hc with rfl | rfl | rfl
  · exact ⟨3, by decide, by decide⟩
  · exact ⟨5, by decide, by decide⟩
  · exact ⟨2, by decide, by decide⟩

theorem padArith (k w : ℕ) (hw : 1 ≤ w) :
    (k + (if k % w = 0 then 0 else w - k % w)) % w = 0 ∧
    k + (if k % w = 0 then 0 else w - k % w) < k + w := by
  have hmod := Nat.div_add_mod k w
  have hlt : k % w < w := Nat.mod_lt _ (by omega)
  by_cases hr : k % w = 0
  · rw [if_pos hr]
    constructor
    · have : k = w * (k / w) := by omega
      rw [Nat.add_zero, this, Nat.mul_mod_right]
    · omega
  · rw [if_neg hr]
    constructor
    · have h1 : k + (w - k % w) = w * (k / w + 1) := by
        have h2 : w * (k / w + 1) = w * (k / w) + w := by ring
        omega
      rw [h1, Nat.mul_mod_right]
    · omega

theorem headD_append_of_ne_nil (l r : List β) (d : β) (h : l ≠ []) :
    (l ++ r).headD d = l.headD d := by
  cases l with
  | nil => exact absurd rfl h
  | cons x t => rfl

theorem getD_append_replicate (l : List β) (m i : ℕ) (d x : β)
    (h1 : l.length ≤ i) (h2 : i < l.length + m) :
    (l ++ List.replicate m d).getD i x = d := by
  rw [List.getD_append_right _ _ _ _ h1]
  exact getD_replicate_of_lt d x m (i - l.length) (by omega)

theorem headD_map_ne_nil (f : β → γ) (l : List β) (d : γ) (d' : β) (h : l ≠ []) :
    (l.map f).headD d = f (l.headD d') := by
  cases l with
  | nil => exact absurd rfl h
  | cons x t => rfl

theorem lastColSlice_length (c : List β) (h : c ≠ []) : (lastColSlice c).length = 1 := by
  rw [lastColSlice, List.length_drop]
  have := List.length_pos.mpr h
  omega

theorem splitArray_head_ne_nil (a : List β) (pts : List ℕ) (h0 : 0 < a.length)
    (hhead : pts.head? = some 0) (hchain : List.Chain' (· < ·) pts) :
    (splitArray a pts).headD [] ≠ [] := by
  cases pts with
  | nil => simp at hhead
  | cons p rest =>
    simp only [List.head?_cons, Option.some.injEq] at hhead
    subst hhead
    cases rest with
    | nil =>
      simp only [splitArray, sliceCols, List.headD_cons]
      rw [← List.length_pos, List.length_take, List.length_drop]
      omega
    | cons q rest2 =>
      have hq : 0 < q := (List.chain'_cons.mp hchain).1
      simp only [splitArray, sliceCols, List.headD_cons]
      rw [← List.length_pos, List.length_take, List.length_drop]
      omega

/-- C8: after padding, the sub-batch count is the smallest multiple of the
worker count that is at least the number of real sub-batches, and every
appended dummy is a single-example slice equal to the last example of the
first real sub-batch, with unnormalized weight 0. -/
theorem c8_padding_invariant (x_mask y_mask : List (List ℕ)) (pts : List ℕ) (w : ℕ)
    (hw : 1 ≤ w) (hhead : pts.head? = some 0) (hchain : List.Chain' (· < ·) pts)
    (hxbound : ∀ p ∈ pts, p < x_mask.length) (hy0 : 0 < y_mask.length) :
    (splitAndPadMasks x_mask y_mask pts w).1.length % w = 0 ∧
    pts.length ≤ (splitAndPadMasks x_mask y_mask pts w).1.length ∧
    (splitAndPadMasks x_mask y_mask pts w).1.length < pts.length + w ∧
    (splitAndPadMasks x_mask y_mask pts w).2.1.length =
      (splitAndPadMasks x_mask y_mask pts w).1.length ∧
    (splitAndPadMasks x_mask y_mask pts w).2.2.length =
      (splitAndPadMasks x_mask y_mask pts w).1.length ∧
    ∀ i, pts.length ≤ i → i < (splitAndPadMasks x_mask y_mask pts w).1.length →
      (splitAndPadMasks x_mask y_mask pts w).1.getD i [] =
        lastColSlice ((splitAndPadMasks x_mask y_mask pts w).1.headD []) ∧
      ((splitAndPadMasks x_mask y_mask pts w).1.getD i []).length = 1 ∧
      (splitAndPadMasks x_mask y_mask pts w).2.1.getD i [] =
        lastColSlice ((splitAndPadMasks x_mask y_mask pts w).2.1.headD []) ∧
      ((splitAndPadMasks x_mask y_mask pts w).2.1.getD i []).length = 1 ∧
      (splitAndPadMasks x_mask y_mask pts w).2.2.getD i 1 = 0 := by
  have hx0 : 0 < x_mask.length := by
    have h0mem : 0 ∈ pts := by
      cases pts with
      | nil => simp at hhead
      | cons p rest =>
        simp only [List.head?_cons, Option.some.injEq] at hhead
        subst hhead
        exact List.mem_cons_self 0 rest
    exact Nat.lt_of_le_of_lt (Nat.zero_le 0) (hxbound 0 h0mem)
  have hk : 0 < pts.length := by
    cases pts with
    | nil => simp at hhead
    | cons p rest => simp
  have hyhead : pts.head? = some 0 := hhead
  simp only [splitAndPadMasks]
  set sx := (splitArray x_mask pts).map trimSub with hsx
  set sy := (splitArray y_mask pts).map trimSub with hsy
  set wts := (sx.zip sy).map (fun st => ((maskSum st.1 + maskSum st.2 : ℕ) : ℚ)) with hwts
  set padsz := (if pts.length % w = 0 then 0 else w - pts.length % w) with hpadsz
  have hsxlen : sx.length = pts.length := by
    rw [hsx, List.length_map, splitArray_length]
  have hsylen : sy.length = pts.length := by
    rw [hsy, List.length_map, splitArray_length]
  have hwtslen : wts.length = pts.length := by
    rw [hwts, List.length_map, List.length_zip, hsxlen, hsylen, Nat.min_self]
  have hsxne : sx ≠ [] := by
    rw [← List.length_pos, hsxlen]
    exact hk
  have hsyne : sy ≠ [] := by
    rw [← List.length_pos, hsylen]
    exact hk
  have harith := padArith pts.length w hw
  have hfirstx : sx.headD [] ≠ [] := by
    rw [hsx, headD_map_ne_nil trimSub _ [] [] (by
      rw [← List.length_pos, splitArray_length]; exact hk)]
    rw [trimSub, trimTo, ← List.length_pos, List.length_map, List.length_pos]
    exact splitArray_head_ne_nil x_mask pts hx0 hhead hchain
  have hfirsty : sy.headD [] ≠ [] := by
    rw [hsy, headD_map_ne_nil trimSub _ [] [] (by
      rw [← List.length_pos, splitArray_length]; exact hk)]
    rw [trimSub, trimTo, ← List.length_pos, List.length_map, List.length_pos]
    exact splitArray_head_ne_nil y_mask pts hy0 hyhead hchain
  refine ⟨?_, ?_, ?_, ?_, ?_, ?_⟩
  · simp only [List.length_append, List.length_replicate, hsxlen]
    exact harith.1
  · simp only [List.length_append, List.length_replicate, hsxlen]
    omega
  · simp only [List.length_append, List.length_replicate, hsxlen]
    exact harith.2
  · simp only [List.length_append, List.length_replicate, hsxlen, hsylen]
  · simp only [List.length_append, List.length_replicate, hsxlen, hwtslen]
  · intro i hi1 hi2
    simp only [List.length_append, List.length_replicate, hsxlen] at hi2
    refine ⟨?_, ?_, ?_, ?_, ?_⟩
    · rw [getD_append_replicate _ _ _ _ _ (by omega) (by omega)]
      rw [headD_append_of_ne_nil _ _ _ hsxne]
    · rw [getD_append_replicate _ _ _ _ _ (by omega) (by omega)]
      exact lastColSlice_length _ hfirstx
    · rw [getD_append_replicate _ _ _ _ _ (by omega) (by omega)]
      rw [headD_append_of_ne_nil _ _ _ hsyne]
    · rw [getD_append_replicate _ _ _ _ _ (by omega) (by omega)]
      exact lastColSlice_length _ hfirsty
    · rw [getD_append_replicate _ _ _ _ _ (by omega) (by omega)]

theorem c8_padding_invariant_witness :
    1 ≤ 3 ∧ (splitAndPadMasks [[1], [1], [1]] [[1], [1], [1]] [0, 1] 3).1.length % 3 = 0 :=
  ⟨by decide, (c8_padding_invariant [[1], [1], [1]] [[1], [1], [1]] [0, 1] 3 (by decide)
    rfl (by simp) (by decide) (by decide)).1⟩

/-- C9: on source lengths `[3,5,2,4]` and target lengths `[2,3,1,2]` with
`n = 2` the fixed-count split computes `soft_limit = 16`, split points
`[0, 3]`, unnormalized weights `[16, 6]` and normalized weights
`[16/22, 6/22]`. -/
theorem c9_fixed_split_scenario :
    softLimit (lengthsOf [[1,1,1,0,0], [1,1,1,1,1], [1,1,0,0,0], [1,1,1,1,0]])
      (lengthsOf [[1,1,0], [1,1,1], [1,0,0], [1,1,0]]) 2 = 16 ∧
    splitIntoN (lengthsOf [[1,1,1,0,0], [1,1,1,1,1], [1,1,0,0,0], [1,1,1,1,0]])
      (lengthsOf [[1,1,0], [1,1,1], [1,0,0], [1,1,0]]) 2 = [0, 3] ∧
    (splitAndPadMasks [[1,1,1,0,0], [1,1,1,1,1], [1,1,0,0,0], [1,1,1,1,0]]
      [[1,1,0], [1,1,1], [1,0,0], [1,1,0]]
      (splitIntoN (lengthsOf [[1,1,1,0,0], [1,1,1,1,1], [1,1,0,0,0], [1,1,1,1,0]])
        (lengthsOf [[1,1,0], [1,1,1], [1,0,0], [1,1,0]]) 2) 2).2.2 = [16, 6] ∧
    normalizeWeights
      (splitAndPadMasks [[1,1,1,0,0], [1,1,1,1,1], [1,1,0,0,0], [1,1,1,1,0]]
        [[1,1,0], [1,1,1], [1,0,0], [1,1,0]]
        (splitIntoN (lengthsOf [[1,1,1,0,0], [1,1,1,1,1], [1,1,0,0,0], [1,1,1,1,0]])
          (lengthsOf [[1,1,0], [1,1,1], [1,0,0], [1,1,0]]) 2) 2).2.2 =
      [16/22, 6/22] := by
  refine ⟨by decide, by decide, by decide, ?_⟩
  have hw : (splitAndPadMasks [[1,1,1,0,0], [1,1,1,1,1], [1,1,0,0,0], [1,1,1,1,0]]
      [[1,1,0], [1,1,1], [1,0,0], [1,1,0]]
      (splitIntoN (lengthsOf [[1,1,1,0,0], [1,1,1,1,1], [1,1,0,0,0], [1,1,1,1,0]])
        (lengthsOf [[1,1,0], [1,1,1], [1,0,0], [1,1,0]]) 2) 2).2.2 = [16, 6] := by
    decide
  rw [hw]
  simp [normalizeWeights]
  norm_num

theorem c4_arithmetic_error_counterexample :
    (splitAndPadMasks [[0]] [[0]]
      (splitIntoN (lengthsOf [[0]]) (lengthsOf [[0]]) 1) 1).2.2.sum = 0 ∧
    (updatePrepare [[0]] [[0]] 0 0 1 1).isOk = true := by
  constructor
  · have h : (splitAndPadMasks [[0]] [[0]]
        (splitIntoN (lengthsOf [[0]]) (lengthsOf [[0]]) 1) 1).2.2 = [0] := by
      decide
    rw [h]
    simp
  · decide

/-- C4 (amended): when the unnormalized sub-batch weights sum to zero the
update does not abort — the list-comprehension division is performed on
numpy scalars, which turn division by zero into `nan` with a warning rather
than an `ArithmeticError` — so the pre-dispatch phase still succeeds. -/
theorem c4_zero_weight_no_error (x_mask y_mask : List (List ℕ)) (r a : ℕ)
    (h0 : 0 < x_mask.length) (hlen : x_mask.length = y_mask.length)
    (hra : 1 ≤ r * a)
    (hzero : (splitAndPadMasks x_mask y_mask
      (splitIntoN (lengthsOf x_mask) (lengthsOf y_mask) (r * a)) r).2.2.sum = 0) :
    (updatePrepare x_mask y_mask 0 0 r a).isOk = true := by
  rw [updatePrepare]
  simp only [ne_eq, not_true_eq_false, or_self, if_false, not_false_eq_true]
  rw [split_minibatch_into_n]
  have h1 : ¬((lengthsOf x_mask).length ≠ (lengthsOf y_mask).length) := by
    simp [lengthsOf, hlen]
  rw [if_neg h1]
  have h2 : ¬((lengthsOf x_mask).length = 0) := by
    simp only [lengthsOf, List.length_map]
    omega
  rw [if_neg h2]
  rw [if_neg (by omega : ¬(r * a = 0))]
  rw [if_pos (splitIntoN_length_le (lengthsOf x_mask) (lengthsOf y_mask) (r * a) hra)]
  rfl

theorem c4_zero_weight_no_error_witness :
    (splitAndPadMasks [[0]] [[0]]
      (splitIntoN (lengthsOf [[0]]) (lengthsOf [[0]]) (1 * 1)) 1).2.2.sum = 0 ∧
    (updatePrepare [[0]] [[0]] 0 0 1 1).isOk = true := by
  have hzero : (splitAndPadMasks [[0]] [[0]]
      (splitIntoN (lengthsOf [[0]]) (lengthsOf [[0]]) (1 * 1)) 1).2.2.sum = 0 := by
    have h : (splitAndPadMasks [[0]] [[0]]
        (splitIntoN (lengthsOf [[0]]) (lengthsOf [[0]]) (1 * 1)) 1).2.2 = [0] := by
      decide
    rw [h]
    simp
  exact ⟨hzero, c4_zero_weight_no_error [[0]] [[0]] 1 1 (by decide) (by decide)
    (by decide) hzero⟩
end Nematus
